import Mathlib

/-!
Shallow embedding of the MrezaGh/Blockchain repository (Go) in Lean 4.

Modelling conventions, used throughout:
- SHA-256 hex digests are modelled by an abstract hash function
  `H : String → String` threaded as an explicit parameter; the inputs to
  `H` mirror the exact field sets the Go code feeds into `json.Marshal`
  before `sha256.Sum256`.  `tagHash` is a concrete executable instance
  used in closed witness theorems.
- Go `float64` amounts and fees are modelled by `Rat`; all amounts used
  by the claims are small decimals on which `float64` arithmetic is
  exact for the comparisons involved.
- Go maps (the transaction pools, keyed by transaction hash) are
  modelled by association lists with the same key discipline; Go map
  iteration order is unspecified, so list order is a deterministic
  stand-in and no theorem below depends on it.
- A Go runtime panic (index out of range) is modelled by `Option`:
  `none` means the operation panics.
-/

namespace BC

/-- Concrete executable stand-in hash used for closed evaluations.  It is
injective on distinct inputs, which is all the concrete theorems use. -/
def tagHash (s : String) : String := "#" ++ s

/-! ## Transactions (block.go) -/

/-- Transaction from block.go: From, To, Amount, Fee, Hash.  The Go field
`From` is named `fromAddr` because `from` is a Lean keyword; `To` is
`toAddr` for symmetry. -/
structure Transaction where
  fromAddr : String
  toAddr : String
  amount : Rat
  fee : Rat
  hash : String
deriving DecidableEq, Repr

/-- Serialization of the anonymous struct {From, To, Amount, Fee} that
Transaction.calculateHash JSON-marshals before hashing. -/
def txHashInput (fromAddr toAddr : String) (amount fee : Rat) : String :=
  "tx|" ++ fromAddr ++ "|" ++ toAddr ++ "|" ++ toString amount ++ "|" ++ toString fee

/-- NewTransaction from block.go: stores the fields and the content hash
over from/to/amount/fee. -/
def newTransaction (H : String → String) (fromAddr toAddr : String) (amount fee : Rat) :
    Transaction :=
  { fromAddr := fromAddr, toAddr := toAddr, amount := amount, fee := fee,
    hash := H (txHashInput fromAddr toAddr amount fee) }

/-! ## Merkle tree (merkle.go) -/

/-- MerkleNode from merkle.go.  NewMerkleTree creates exactly two node
shapes: leaves (no children, Data = the transaction hash) and internal
nodes with both children set, so the embedding uses those two
constructors; no code path in merkle.go builds a one-child node. -/
inductive MNode where
  | leaf (hash : String) (data : String)
  | inner (left right : MNode) (hash : String)
deriving DecidableEq, Repr

/-- Hash field of a node. -/
def MNode.nodeHash : MNode → String
  | .leaf h _ => h
  | .inner _ _ h => h

/-- MerkleTree from merkle.go: a nullable root pointer. -/
structure MerkleTree where
  root : Option MNode
deriving DecidableEq, Repr

/-- calculateNodeHash from merkle.go: hash of the concatenation of the
two child hashes. -/
def calculateNodeHash (H : String → String) (leftHash rightHash : String) : String :=
  H (leftHash ++ rightHash)

/-- One pass of the bottom-up build loop in NewMerkleTree
(`for i := 0; i < len(nodes); i += 2`): adjacent nodes are paired
left-to-right.  When the level has odd length the final iteration reads
`nodes[i+1]` past the end of the slice, a Go runtime panic, modelled as
`none`.  The code pads only the leaf level, so odd levels above the
leaves are reachable. -/
def pairLevel (H : String → String) : List MNode → Option (List MNode)
  | [] => some []
  | [_] => none
  | a :: b :: rest =>
    (pairLevel H rest).map
      (fun ps => MNode.inner a b (calculateNodeHash H a.nodeHash b.nodeHash) :: ps)

/-- The outer `for len(nodes) > 1` loop of NewMerkleTree, with fuel to
make the recursion structural; `buildUp` supplies fuel that is always
sufficient (each pass at least halves a level of length at least 2). -/
def buildUpFuel (H : String → String) : Nat → List MNode → Option MNode
  | _, [n] => some n
  | f + 1, a :: b :: rest =>
    match pairLevel H (a :: b :: rest) with
    | none => none
    | some next => buildUpFuel H f next
  | _, _ => none

/-- The bottom-up build of NewMerkleTree starting from a level of nodes. -/
def buildUp (H : String → String) (nodes : List MNode) : Option MNode :=
  buildUpFuel H nodes.length nodes

/-- Leaf padding in NewMerkleTree: if the number of leaves is odd the
last leaf is duplicated. -/
def padEven (nodes : List MNode) : List MNode :=
  if nodes.length % 2 ≠ 0 then nodes ++ nodes.getLast?.toList else nodes

/-- NewMerkleTree from merkle.go: empty batch gives a rootless tree;
otherwise one leaf per transaction (leaf hash = stored transaction
hash), pad the leaf level to even length, then pair bottom-up.  `none`
models the index-out-of-range panic of the pairing loop. -/
def newMerkleTree (H : String → String) (transactions : List Transaction) :
    Option MerkleTree :=
  if transactions.isEmpty then some { root := none }
  else
    let leaves := transactions.map (fun tx => MNode.leaf tx.hash tx.hash)
    (buildUp H (padEven leaves)).map (fun r => { root := some r })

/-- GetMerkleRoot from merkle.go: empty string when there is no root. -/
def getMerkleRoot (mt : MerkleTree) : String :=
  match mt.root with
  | none => ""
  | some r => r.nodeHash

/-- MerkleProof from merkle.go: target hash plus the parallel arrays of
sibling hashes and sibling-is-left flags. -/
structure MerkleProof where
  hash : String
  hashes : List String
  isLeft : List Bool
deriving DecidableEq, Repr

/-- buildProof from merkle.go, returning the authentication path as
(sibling hash, sibling-is-left) pairs in leaf-to-root order.  The Go
version appends to the two parallel slices of a shared proof record
while unwinding a successful depth-first search; the appends of the
deeper calls happen first, hence `p ++ [sibling]`.  For a leaf it
matches by hash equality; internal nodes built by NewMerkleTree always
have both children, so the nil-sibling guards of the Go code never
skip an append. -/
def buildProof : MNode → String → Option (List (String × Bool))
  | .leaf h _, txHash => if h = txHash then some [] else none
  | .inner l r _, txHash =>
    match buildProof l txHash with
    | some p => some (p ++ [(r.nodeHash, false)])
    | none =>
      match buildProof r txHash with
      | some p => some (p ++ [(l.nodeHash, true)])
      | none => none

/-- GenerateProof from merkle.go: error on an empty tree, error when no
leaf matches, otherwise the proof with the two parallel arrays. -/
def generateProof (mt : MerkleTree) (txHash : String) : Except String MerkleProof :=
  match mt.root with
  | none => .error "empty tree"
  | some r =>
    match buildProof r txHash with
    | none => .error "transaction not found in tree"
    | some p =>
      .ok { hash := txHash, hashes := p.map Prod.fst, isLeft := p.map Prod.snd }

/-- One iteration of the VerifyProof loop: when the sibling is the left
child the current hash is the right argument of the node hash. -/
def foldProofStep (H : String → String) (current : String) (step : String × Bool) :
    String :=
  if step.2 then calculateNodeHash H step.1 current
  else calculateNodeHash H current step.1

/-- VerifyProof from merkle.go: mismatched array lengths fail closed;
otherwise fold the path from the target hash and compare with the
expected root. -/
def verifyProof (H : String → String) (proof : MerkleProof) (rootHash : String) :
    Bool :=
  if proof.hashes.length ≠ proof.isLeft.length then false
  else ((proof.hashes.zip proof.isLeft).foldl (foldProofStep H) proof.hash) == rootHash

/-- collectLeafHashes / GetTransactionHashes from merkle.go: the leaf
hashes of a subtree in left-to-right order. -/
def leafHashes : MNode → List String
  | .leaf h _ => [h]
  | .inner l r _ => leafHashes l ++ leafHashes r

/-- Well-formed Merkle nodes: every internal node carries the hash of
the concatenation of its children.  All nodes created by NewMerkleTree
satisfy this by construction. -/
inductive WF (H : String → String) : MNode → Prop
  | leaf (h d : String) : WF H (.leaf h d)
  | inner {l r : MNode} (hl : WF H l) (hr : WF H r) :
      WF H (.inner l r (calculateNodeHash H l.nodeHash r.nodeHash))

/-! ## Blocks (block.go) -/

/-- Block from block.go.  `merkleTreeCache` is the `MerkleTree` pointer
field (JSON tag "-", so it is nil on a block loaded from the database
and set on a block built by NewBlock). -/
structure Block where
  index : Int
  timestamp : Int
  transactions : List Transaction
  prevHash : String
  hash : String
  nonce : Int
  merkleRoot : String
  merkleTreeCache : Option MerkleTree
deriving DecidableEq, Repr

/-- Serialization of the anonymous struct {Index, Timestamp, MerkleRoot,
PrevHash, Nonce} that Block.calculateHash JSON-marshals before hashing.
The transaction list is NOT part of the input: the block hash commits to
the transactions only through the Merkle root field. -/
def blockHashInput (index timestamp : Int) (merkleRoot prevHash : String)
    (nonce : Int) : String :=
  "blk|" ++ toString index ++ "|" ++ toString timestamp ++ "|" ++ merkleRoot ++
    "|" ++ prevHash ++ "|" ++ toString nonce

/-- Block.calculateHash from block.go. -/
def calculateBlockHash (H : String → String) (b : Block) : String :=
  H (blockHashInput b.index b.timestamp b.merkleRoot b.prevHash b.nonce)

/-- NewBlock from block.go: builds the Merkle tree over the batch,
stores its root, stamps the (caller-supplied model) time, nonce 0, hash
unset.  `none` propagates a Merkle-construction panic. -/
def newBlock (H : String → String) (index : Int) (transactions : List Transaction)
    (prevHash : String) (timestamp : Int) : Option Block :=
  (newMerkleTree H transactions).map (fun mt =>
    { index := index, timestamp := timestamp, transactions := transactions,
      prevHash := prevHash, nonce := 0, hash := "",
      merkleRoot := getMerkleRoot mt, merkleTreeCache := some mt })

/-- createGenesisBlock from blockchain.go: NewBlock(0, [], "0").  The
empty batch never panics, so the result is a plain Block. -/
def createGenesisBlock (H : String → String) (timestamp : Int) : Block :=
  { index := 0, timestamp := timestamp, transactions := [], prevHash := "0",
    nonce := 0, hash := "", merkleRoot := "", merkleTreeCache := some { root := none } }

/-- MineBlock from block.go: the proof-of-work loop increments the nonce
and recomputes the hash until the first `difficulty` characters are all
zero; on exit the stored hash equals calculateHash of the final state.
The unbounded nonce search is abstracted by `finalNonce`; neither
IsChainValid variant re-checks the difficulty prefix, so no theorem
below depends on which nonce the loop found. -/
def mineBlock (H : String → String) (finalNonce : Int) (b : Block) : Block :=
  let b1 : Block := { b with nonce := finalNonce }
  { b1 with hash := calculateBlockHash H b1 }

/-- ValidateTransactions from block.go, as the boolean the caller
consumes.  With a cached tree it compares the stored root against the
cached tree root (the transaction list is not consulted).  With no
cached tree it rebuilds from the stored transaction hashes — `none`
models the rebuild panic — and, because the rebuilt root is also written
back into MerkleRoot when non-nil, returns true whenever the rebuilt
tree has a root; the in-place writes affect no other field that chain
validation reads. -/
def validateTransactions (H : String → String) (b : Block) : Option Bool :=
  match b.merkleTreeCache with
  | some mt => some (b.merkleRoot == getMerkleRoot mt)
  | none =>
    (newMerkleTree H b.transactions).map (fun mt =>
      match mt.root with
      | some _ => true
      | none => b.merkleRoot == "")

/-- VerifyTransactionProof from block.go: verifies against the stored
MerkleRoot field, not a recomputed root. -/
def verifyTransactionProof (H : String → String) (b : Block) (proof : MerkleProof) :
    Bool :=
  verifyProof H proof b.merkleRoot

/-! ## Transaction pool (transaction_pool.go) -/

/-- TransactionPool: the Go map transactions[hash] is modelled by an
association list keyed by the hash; maxSize as configured. -/
structure TransactionPool where
  transactions : List (String × Transaction)
  maxSize : Nat
deriving DecidableEq, Repr

/-- NewTransactionPool. -/
def newTransactionPool (maxSize : Nat) : TransactionPool :=
  { transactions := [], maxSize := maxSize }

/-- validateTransaction from transaction_pool.go: first failing check
wins; `none` means valid. -/
def validateTransaction (tp : TransactionPool) (tx : Transaction) : Option String :=
  if tx.fromAddr = "" ∨ tx.toAddr = "" then
    some "invalid transaction: missing from/to address"
  else if tx.amount ≤ 0 then some "invalid transaction: amount must be positive"
  else if tx.fee < 0 then some "invalid transaction: fee cannot be negative"
  else if (tp.transactions.lookup tx.hash).isSome then
    some "transaction already exists in pool"
  else none

/-- AddTransaction from transaction_pool.go: size check, validation,
then insertion under the hash key.  The pair returns the possibly
updated pool and the error, mirroring in-place mutation plus the Go
error return. -/
def addTransaction (tp : TransactionPool) (tx : Transaction) :
    TransactionPool × Option String :=
  if tp.maxSize ≤ tp.transactions.length then (tp, some "transaction pool is full")
  else
    match validateTransaction tp tx with
    | some e => (tp, some e)
    | none => ({ tp with transactions := tp.transactions ++ [(tx.hash, tx)] }, none)

/-- GetTransactions: all pooled transactions (list order stands in for
Go map iteration order). -/
def getTransactions (tp : TransactionPool) : List Transaction :=
  tp.transactions.map Prod.snd

/-- RemoveTransactions: delete by hash key, idempotent. -/
def removeTransactions (tp : TransactionPool) (txs : List Transaction) :
    TransactionPool :=
  { tp with transactions :=
      tp.transactions.filter (fun p => !(txs.any (fun t => t.hash == p.fst))) }

/-! ## Enhanced transactions (enhanced transaction source file) -/

/-- TransactionType constants.  In Go this is a string type with the
four declared constants; only those four are ever constructed. -/
inductive TransactionType where
  | standardTx
  | multiSigTx
  | timeLockTx
  | contractTx
deriving DecidableEq, Repr

/-- TransactionSignature: an opaque (publicKey, signature, signer)
triple. -/
structure TransactionSignature where
  publicKey : String
  signature : String
  signer : String
deriving DecidableEq, Repr

/-- EnhancedTransaction.  The metadata map and the contract/duration
fields are carried opaquely; no operation modelled here reads them (the
metadata-sensitive hash recomputation is outside the claims). -/
structure EnhancedTransaction where
  id : String
  type : TransactionType
  fromAddr : String
  toAddr : String
  amount : Rat
  fee : Rat
  timestamp : Int
  hash : String
  signatures : List TransactionSignature
  requiredSigs : Int
  signers : List String
  lockTime : Int
  lockDuration : Int
  contractCode : String
  contractData : String
deriving DecidableEq, Repr

/-- ToStandardTransaction: project the five standard fields. -/
def toStandardTransaction (tx : EnhancedTransaction) : Transaction :=
  { fromAddr := tx.fromAddr, toAddr := tx.toAddr, amount := tx.amount,
    fee := tx.fee, hash := tx.hash }

/-- IsFullySigned: one signature suffices except for MultiSig, which
needs RequiredSigs many. -/
def isFullySigned (tx : EnhancedTransaction) : Bool :=
  match tx.type with
  | .standardTx => decide (1 ≤ tx.signatures.length)
  | .multiSigTx => decide (tx.requiredSigs ≤ (tx.signatures.length : Int))
  | .timeLockTx => decide (1 ≤ tx.signatures.length)
  | .contractTx => decide (1 ≤ tx.signatures.length)

/-- IsExecutable: fully signed, and for a TimeLock transaction with a
positive LockTime the current time must have reached it. -/
def isExecutable (now : Int) (tx : EnhancedTransaction) : Bool :=
  if !(isFullySigned tx) then false
  else if tx.type = .timeLockTx ∧ 0 < tx.lockTime then decide (tx.lockTime ≤ now)
  else true

/-- verifySignature: structural non-emptiness of the triple. -/
def verifySignature (sig : TransactionSignature) : Bool :=
  decide (sig.signature ≠ "" ∧ sig.publicKey ≠ "" ∧ sig.signer ≠ "")

/-- AddSignature: structural check, duplicate-signer check, MultiSig
authorization check, then append. -/
def addSignature (tx : EnhancedTransaction) (sig : TransactionSignature) :
    Except String EnhancedTransaction :=
  if !(verifySignature sig) then .error "invalid signature"
  else if tx.signatures.any (fun s => s.signer == sig.signer) then
    .error "transaction already signed by this signer"
  else if tx.type = .multiSigTx ∧ !(tx.signers.any (fun s => s == sig.signer)) then
    .error "signer not authorized for this multi-sig transaction"
  else .ok { tx with signatures := tx.signatures ++ [sig] }

/-! ## Enhanced transaction pool (enhanced_transaction_pool.go) -/

/-- EnhancedTransactionPool: two hash-keyed maps, one per kind. -/
structure EnhancedTransactionPool where
  standardTxs : List (String × Transaction)
  enhancedTxs : List (String × EnhancedTransaction)
  maxSize : Nat
deriving DecidableEq, Repr

/-- NewEnhancedTransactionPool. -/
def newEnhancedTransactionPool (maxSize : Nat) : EnhancedTransactionPool :=
  { standardTxs := [], enhancedTxs := [], maxSize := maxSize }

/-- validateEnhancedTransaction: basic checks, duplicate check, then the
type-specific MultiSig / TimeLock checks (`now` models time.Now). -/
def validateEnhancedTransaction (now : Int) (etp : EnhancedTransactionPool)
    (tx : EnhancedTransaction) : Option String :=
  if tx.fromAddr = "" ∨ tx.toAddr = "" then
    some "invalid transaction: missing from/to address"
  else if tx.amount ≤ 0 then some "invalid transaction: amount must be positive"
  else if tx.fee < 0 then some "invalid transaction: fee cannot be negative"
  else if (etp.enhancedTxs.lookup tx.hash).isSome then
    some "transaction already exists in pool"
  else
    match tx.type with
    | .multiSigTx =>
      if tx.requiredSigs ≤ 0 ∨ (tx.signers.length : Int) < tx.requiredSigs then
        some "invalid multi-sig transaction: invalid required signatures count"
      else if tx.signers.length = 0 then
        some "invalid multi-sig transaction: no signers specified"
      else none
    | .timeLockTx =>
      if tx.lockTime ≤ 0 then some "invalid time-lock transaction: invalid lock time"
      else if tx.lockTime ≤ now then
        some "invalid time-lock transaction: lock time must be in the future"
      else none
    | _ => none

/-- AddEnhancedTransaction: combined size check over both maps, then
validation, then insertion into the enhanced map. -/
def addEnhancedTransaction (now : Int) (etp : EnhancedTransactionPool)
    (tx : EnhancedTransaction) : EnhancedTransactionPool × Option String :=
  if etp.maxSize ≤ etp.standardTxs.length + etp.enhancedTxs.length then
    (etp, some "transaction pool is full")
  else
    match validateEnhancedTransaction now etp tx with
    | some e => (etp, some e)
    | none => ({ etp with enhancedTxs := etp.enhancedTxs ++ [(tx.hash, tx)] }, none)

/-- GetExecutableTransactions: every standard transaction, plus the
enhanced transactions whose IsExecutable holds at `now`. -/
def getExecutableTransactions (now : Int) (etp : EnhancedTransactionPool) :
    List Transaction × List EnhancedTransaction :=
  (etp.standardTxs.map Prod.snd,
    (etp.enhancedTxs.map Prod.snd).filter (isExecutable now))

/-- RemoveEnhancedTransactions: delete by hash key, idempotent. -/
def removeEnhancedTransactions (etp : EnhancedTransactionPool)
    (txs : List EnhancedTransaction) : EnhancedTransactionPool :=
  { etp with enhancedTxs :=
      etp.enhancedTxs.filter (fun p => !(txs.any (fun t => t.hash == p.fst))) }

/-- AddSignatureToTransaction: look up by hash, delegate to
AddSignature, store the updated transaction under the same key (the
enhanced hash does not cover signatures, so the key is unchanged). -/
def addSignatureToTransaction (etp : EnhancedTransactionPool) (txHash : String)
    (sig : TransactionSignature) : EnhancedTransactionPool × Option String :=
  match etp.enhancedTxs.lookup txHash with
  | none => (etp, some "transaction not found in pool")
  | some tx =>
    match addSignature tx sig with
    | .error e => (etp, some e)
    | .ok tx2 =>
      ({ etp with enhancedTxs :=
          etp.enhancedTxs.map (fun p => if p.fst == txHash then (p.fst, tx2) else p) },
        none)

/-! ## In-memory blockchain (blockchain.go) -/

/-- Blockchain from blockchain.go. -/
structure Blockchain where
  chain : List Block
  difficulty : Int
  transactionPool : TransactionPool
  miningReward : Rat
  miningRewardAddr : String
deriving DecidableEq, Repr

/-- NewBlockchain(difficulty, miningRewardAddr): the genesis timestamp
models time.Now at construction.  MiningReward is the literal 10.0 and
the pool maximum is the literal 1000 — neither is a parameter. -/
def newBlockchain (H : String → String) (genesisTime : Int) (difficulty : Int)
    (miningRewardAddr : String) : Blockchain :=
  { chain := [createGenesisBlock H genesisTime], difficulty := difficulty,
    transactionPool := newTransactionPool 1000, miningReward := 10,
    miningRewardAddr := miningRewardAddr }

/-- GetLatestBlock: Chain[len-1]; `none` models the panic on an empty
chain, which no constructed chain has. -/
def getLatestBlock (chain : List Block) : Option Block := chain.getLast?

/-- The reward transaction synthesized at the start of every
MinePendingTransactions call: from "network" to the configured address,
amount = configured reward, fee 0. -/
def rewardTransaction (H : String → String) (rewardAddr : String) (reward : Rat) :
    Transaction :=
  newTransaction H "network" rewardAddr reward 0

/-- Blockchain.AddTransaction: forward to the pool. -/
def addTransactionB (bc : Blockchain) (tx : Transaction) : Blockchain × Option String :=
  let r := addTransaction bc.transactionPool tx
  ({ bc with transactionPool := r.1 }, r.2)

/-- MinePendingTransactions from blockchain.go: insert the reward
transaction (error discarded), snapshot the pool, build a block at
index len(chain) on top of the latest hash, mine it, append it, and
remove the mined transactions from the pool.  `finalNonce` abstracts
the proof-of-work search, `now` the block timestamp; `none` propagates
the Merkle build panic or an empty-chain panic. -/
def minePendingTransactionsM (H : String → String) (bc : Blockchain)
    (finalNonce now : Int) : Option Blockchain :=
  let pool1 := (addTransaction bc.transactionPool
    (rewardTransaction H bc.miningRewardAddr bc.miningReward)).1
  let pendingTxs := getTransactions pool1
  match getLatestBlock bc.chain with
  | none => none
  | some latest =>
    match newBlock H (bc.chain.length : Int) pendingTxs latest.hash now with
    | none => none
    | some b =>
      some { bc with
             chain := bc.chain ++ [mineBlock H finalNonce b],
             transactionPool := removeTransactions pool1 pendingTxs }

/-- One transaction applied to a running balance in GetBalance
(blockchain.go): the sender is debited the amount ONLY — the fee is not
subtracted on this path — and the receiver is credited the amount. -/
def applyTxBalance (address : String) (balance : Rat) (tx : Transaction) : Rat :=
  let b1 := if tx.fromAddr = address then balance - tx.amount else balance
  if tx.toAddr = address then b1 + tx.amount else b1

/-- GetBalance from blockchain.go: full scan over every block and
transaction. -/
def getBalance (bc : Blockchain) (address : String) : Rat :=
  bc.chain.foldl (fun bal b => b.transactions.foldl (applyTxBalance address) bal) 0

/-- The loop body of IsChainValid (blockchain.go) from index 1 on:
recomputed-hash check then linkage check; no Merkle check on this
variant. -/
def validFromM (H : String → String) : Block → List Block → Bool
  | _, [] => true
  | prev, b :: rest =>
    if b.hash ≠ calculateBlockHash H b then false
    else if b.prevHash ≠ prev.hash then false
    else validFromM H b rest

/-- IsChainValid from blockchain.go. -/
def isChainValidM (H : String → String) (bc : Blockchain) : Bool :=
  match bc.chain with
  | [] => true
  | g :: rest => validFromM H g rest

/-! ## Persistent blockchain (persistent_blockchain.go) -/

/-- PersistentBlockchain.  The database handle is external; persistence
outcomes enter as parameters of the operations that touch storage. -/
structure PersistentBlockchain where
  chain : List Block
  difficulty : Int
  transactionPool : TransactionPool
  enhancedPool : EnhancedTransactionPool
  miningReward : Rat
  miningRewardAddr : String
deriving DecidableEq, Repr

/-- NewPersistentBlockchain(difficulty, miningRewardAddr, dbConfig):
`loaded` models the db.LoadBlockchain outcome (`none` = load error).  A
failed or empty load yields a fresh genesis chain (the genesis save
error is only logged).  MiningReward is the literal 10.0 and both pool
maxima are the literal 1000 — none of these is a parameter. -/
def newPersistentBlockchain (H : String → String) (loaded : Option (List Block))
    (difficulty : Int) (miningRewardAddr : String) (genesisTime : Int) :
    PersistentBlockchain :=
  let chain := match loaded with
    | none => [createGenesisBlock H genesisTime]
    | some c => if c.isEmpty then [createGenesisBlock H genesisTime] else c
  { chain := chain, difficulty := difficulty,
    transactionPool := newTransactionPool 1000,
    enhancedPool := newEnhancedTransactionPool 1000,
    miningReward := 10, miningRewardAddr := miningRewardAddr }

/-- A persistent chain constructed with nothing in the database. -/
def freshPersistentBlockchain (H : String → String) (difficulty : Int)
    (miningRewardAddr : String) (genesisTime : Int) : PersistentBlockchain :=
  newPersistentBlockchain H none difficulty miningRewardAddr genesisTime

/-- PersistentBlockchain.AddTransaction: forward to the standard pool. -/
def addTransactionP (pbc : PersistentBlockchain) (tx : Transaction) :
    PersistentBlockchain × Option String :=
  let r := addTransaction pbc.transactionPool tx
  ({ pbc with transactionPool := r.1 }, r.2)

/-- MinePendingTransactions from persistent_blockchain.go: reward
insertion (error discarded), pool snapshot plus the executable enhanced
transactions converted to standard form, block creation and mining,
append; then either a successful save (remove the mined transactions
from both pools) or a failed save (pop the just-appended block, keep
both pools, and surface the error).  `saveOk` models the
Database.SaveBlock outcome. -/
def minePendingTransactionsP (H : String → String) (pbc : PersistentBlockchain)
    (finalNonce now : Int) (saveOk : Bool) :
    Option (PersistentBlockchain × Option String) :=
  let pool1 := (addTransaction pbc.transactionPool
    (rewardTransaction H pbc.miningRewardAddr pbc.miningReward)).1
  let enhanced := (getExecutableTransactions now pbc.enhancedPool).2
  let pendingTxs := getTransactions pool1 ++ enhanced.map toStandardTransaction
  match getLatestBlock pbc.chain with
  | none => none
  | some latest =>
    match newBlock H (pbc.chain.length : Int) pendingTxs latest.hash now with
    | none => none
    | some b =>
      let chain2 := pbc.chain ++ [mineBlock H finalNonce b]
      if saveOk then
        some ({ pbc with
                chain := chain2,
                transactionPool := removeTransactions pool1 pendingTxs,
                enhancedPool := removeEnhancedTransactions pbc.enhancedPool enhanced },
              none)
      else
        some ({ pbc with chain := chain2.dropLast, transactionPool := pool1 },
              some "failed to persist block")

/-- One transaction applied to a running balance in
calculateBalanceFromChain (persistent_blockchain.go): the sender is
debited amount plus fee, the receiver is credited the amount. -/
def applyTxBalanceFee (address : String) (balance : Rat) (tx : Transaction) : Rat :=
  let b1 := if tx.fromAddr = address then balance - (tx.amount + tx.fee) else balance
  if tx.toAddr = address then b1 + tx.amount else b1

/-- calculateBalanceFromChain from persistent_blockchain.go: the
full-chain fallback scan used when the balance index read fails. -/
def calculateBalanceFromChain (pbc : PersistentBlockchain) (address : String) : Rat :=
  pbc.chain.foldl (fun bal b => b.transactions.foldl (applyTxBalanceFee address) bal) 0

/-- The loop body of IsChainValid (persistent_blockchain.go) from index
1 on: recomputed-hash check, linkage check, then ValidateTransactions;
`none` propagates a ValidateTransactions rebuild panic. -/
def validFromP (H : String → String) : Block → List Block → Option Bool
  | _, [] => some true
  | prev, b :: rest =>
    if b.hash ≠ calculateBlockHash H b then some false
    else if b.prevHash ≠ prev.hash then some false
    else
      match validateTransactions H b with
      | none => none
      | some false => some false
      | some true => validFromP H b rest

/-- IsChainValid from persistent_blockchain.go. -/
def isChainValidP (H : String → String) (pbc : PersistentBlockchain) : Option Bool :=
  match pbc.chain with
  | [] => some true
  | g :: rest => validFromP H g rest

/-- Post-hoc tampering: overwrite the amount field of transaction `j`
inside block `i` of a chain, leaving every other field — in particular
the stored transaction hash, the Merkle root and the block hash —
untouched, exactly as a direct struct-field mutation does in Go. -/
def mutateAmount (chain : List Block) (i j : Nat) (newAmount : Rat) : List Block :=
  match chain.get? i with
  | none => chain
  | some b =>
    match b.transactions.get? j with
    | none => chain
    | some tx =>
      chain.set i
        { b with transactions := b.transactions.set j { tx with amount := newAmount } }

/-- States of a PersistentBlockchain reachable from a fresh construction
by pool operations and MinePendingTransactions calls (with arbitrary
times, proof-of-work outcomes and save outcomes). -/
inductive Produced (H : String → String) : PersistentBlockchain → Prop
  | fresh (difficulty : Int) (addr : String) (ts : Int) :
      Produced H (freshPersistentBlockchain H difficulty addr ts)
  | addTx {pbc : PersistentBlockchain} (tx : Transaction) (hp : Produced H pbc) :
      Produced H (addTransactionP pbc tx).1
  | addEnh {pbc : PersistentBlockchain} (now : Int) (tx : EnhancedTransaction)
      (hp : Produced H pbc) :
      Produced H { pbc with enhancedPool := (addEnhancedTransaction now pbc.enhancedPool tx).1 }
  | addSig {pbc : PersistentBlockchain} (txHash : String) (sig : TransactionSignature)
      (hp : Produced H pbc) :
      Produced H { pbc with enhancedPool := (addSignatureToTransaction pbc.enhancedPool txHash sig).1 }
  | mine {pbc pbc' : PersistentBlockchain} (finalNonce now : Int) (saveOk : Bool)
      (err : Option String) (hp : Produced H pbc)
      (hm : minePendingTransactionsP H pbc finalNonce now saveOk = some (pbc', err)) :
      Produced H pbc'

/-- The shape invariant of every non-genesis block of a mined chain:
consistent stored hash, correct linkage, and a cached Merkle tree whose
root equals the stored root. -/
def GoodTail (H : String → String) : Block → List Block → Prop
  | _, [] => True
  | prev, b :: rest =>
    b.hash = calculateBlockHash H b ∧ b.prevHash = prev.hash ∧
      (∃ mt, b.merkleTreeCache = some mt ∧ b.merkleRoot = getMerkleRoot mt) ∧
      GoodTail H b rest

/-- A non-empty chain whose tail satisfies `GoodTail` under its genesis. -/
def GoodChain (H : String → String) : List Block → Prop
  | [] => False
  | g :: rest => GoodTail H g rest

/-- Two blocks that agree on every field except possibly the transaction
list — the footprint of a post-hoc amount mutation. -/
def coreEq (b b' : Block) : Prop :=
  b.index = b'.index ∧ b.timestamp = b'.timestamp ∧ b.prevHash = b'.prevHash ∧
    b.hash = b'.hash ∧ b.nonce = b'.nonce ∧ b.merkleRoot = b'.merkleRoot ∧
    b.merkleTreeCache = b'.merkleTreeCache

/-- Sample transactions used by the closed witness theorems. -/
def demoTx1 : Transaction := newTransaction tagHash "alice" "bob" 10 (1/10)

/-- Second sample transaction. -/
def demoTx2 : Transaction := newTransaction tagHash "bob" "alice" 5 (1/10)

/-- Third sample transaction. -/
def demoTx3 : Transaction := newTransaction tagHash "alice" "carol" 3 0

/-- A concrete three-transaction batch. -/
def demoTxs : List Transaction := [demoTx1, demoTx2, demoTx3]

/-- The Merkle tree over `demoTxs` (the build succeeds: three leaves are
padded to four). -/
def demoTree : MerkleTree := (newMerkleTree tagHash demoTxs).getD { root := none }

/-- Scenario transaction: A sends 10.0 to B with fee 0.1. -/
def scenarioTxAB : Transaction := newTransaction tagHash "A" "B" 10 (1/10)

/-- Scenario, in-memory variant: fresh chain. -/
def scenarioBc0 : Blockchain := newBlockchain tagHash 0 2 "miner"

/-- Scenario, in-memory variant: after submitting the A-to-B payment. -/
def scenarioBc1 : Blockchain := (addTransactionB scenarioBc0 scenarioTxAB).1

/-- Scenario, in-memory variant: after mining one block (the block holds
the A-to-B payment and the 10.0 reward to "miner"). -/
def scenarioBc2 : Blockchain :=
  (minePendingTransactionsM tagHash scenarioBc1 7 100).getD scenarioBc1

/-- Scenario, persistent variant: fresh chain. -/
def scenarioPbc0 : PersistentBlockchain := freshPersistentBlockchain tagHash 2 "miner" 0

/-- Scenario, persistent variant: after submitting the A-to-B payment. -/
def scenarioPbc1 : PersistentBlockchain := (addTransactionP scenarioPbc0 scenarioTxAB).1

/-- Scenario, persistent variant: after mining one block with a
successful save. -/
def scenarioPbc2 : PersistentBlockchain :=
  match minePendingTransactionsP tagHash scenarioPbc1 7 100 true with
  | some (p, _) => p
  | none => scenarioPbc1

/-- The scenario chain with the committed A-to-B amount mutated post-hoc
from 10 to 999 (persistent variant). -/
def tamperedPbc : PersistentBlockchain :=
  { scenarioPbc2 with chain := mutateAmount scenarioPbc2.chain 1 0 999 }

/-- The scenario chain with the committed A-to-B amount mutated post-hoc
from 10 to 999 (in-memory variant). -/
def tamperedBc : Blockchain :=
  { scenarioBc2 with chain := mutateAmount scenarioBc2.chain 1 0 999 }

/-- The persistent scenario state when the save fails instead. -/
def scenarioPbcFail : PersistentBlockchain :=
  match minePendingTransactionsP tagHash scenarioPbc1 7 100 false with
  | some (p, _) => p
  | none => scenarioPbc1

/-- A transaction filling the small pool used by the C9 witness. -/
def fullPoolTx : Transaction := newTransaction tagHash "C" "D" 1 0

/-- A blockchain whose pool is at its maximum size (one entry, maximum
one), used to exercise the silent reward-insertion failure. -/
def fullPoolBc : Blockchain :=
  { chain := [createGenesisBlock tagHash 0], difficulty := 1,
    transactionPool := { transactions := [(fullPoolTx.hash, fullPoolTx)], maxSize := 1 },
    miningReward := 10, miningRewardAddr := "miner" }

/-- The chain after mining on the full pool. -/
def fullPoolBc2 : Blockchain :=
  (minePendingTransactionsM tagHash fullPoolBc 3 50).getD fullPoolBc

/-- A 2-of-3 multi-signature transaction carrying one signature. -/
def msig1 : EnhancedTransaction :=
  { id := "id1", type := .multiSigTx, fromAddr := "A", toAddr := "B", amount := 5,
    fee := 0, timestamp := 0, hash := "mh1",
    signatures := [{ publicKey := "pk1", signature := "sg1", signer := "s1" }],
    requiredSigs := 2, signers := ["s1", "s2", "s3"], lockTime := 0,
    lockDuration := 0, contractCode := "", contractData := "" }

/-- The same 2-of-3 multi-signature transaction after a second accepted
signature (stored under a different key). -/
def msig2 : EnhancedTransaction :=
  { msig1 with
    hash := "mh2",
    signatures := [{ publicKey := "pk1", signature := "sg1", signer := "s1" },
                   { publicKey := "pk2", signature := "sg2", signer := "s2" }] }

/-- A standard transaction stored in the enhanced pool. -/
def demoStdTx : Transaction := newTransaction tagHash "E" "F" 2 0

/-- An enhanced pool holding one standard transaction and the two
multi-signature states. -/
def demoEtp : EnhancedTransactionPool :=
  { standardTxs := [(demoStdTx.hash, demoStdTx)],
    enhancedTxs := [("mh1", msig1), ("mh2", msig2)], maxSize := 1000 }

/-- A pool and transaction for the C7 witness. -/
def demoPool : TransactionPool :=
  { transactions := [(demoTx1.hash, demoTx1)], maxSize := 1000 }

end BC

namespace BC

theorem mem_of_getLast?_eq {α : Type} {l : List α} {a : α}
    (h : l.getLast? = some a) : a ∈ l := by
  obtain ⟨ys, rfl⟩ := List.getLast?_eq_some_iff.mp h
  simp

theorem pairLevel_flat (H : String → String) :
    ∀ l l', pairLevel H l = some l' → l'.flatMap leafHashes = l.flatMap leafHashes
  | [], _, h => by
      simp only [pairLevel, Option.some.injEq] at h
      simp [← h]
  | [a], _, h => by
      simp [pairLevel] at h
  | a :: b :: rest, l', h => by
      simp only [pairLevel, Option.map_eq_some'] at h
      obtain ⟨ps, hps, rfl⟩ := h
      have ih := pairLevel_flat H rest ps hps
      simp [leafHashes, ih, List.append_assoc]

theorem pairLevel_wf (H : String → String) :
    ∀ l l', (∀ n ∈ l, WF H n) → pairLevel H l = some l' → ∀ n ∈ l', WF H n
  | [], _, _, h => by
      simp only [pairLevel, Option.some.injEq] at h
      simp [← h]
  | [a], _, _, h => by
      simp [pairLevel] at h
  | a :: b :: rest, l', hwf, h => by
      simp only [pairLevel, Option.map_eq_some'] at h
      obtain ⟨ps, hps, rfl⟩ := h
      intro n hn
      rcases List.mem_cons.mp hn with rfl | hn
      · exact WF.inner (hwf a (by simp)) (hwf b (by simp))
      · exact pairLevel_wf H rest ps (fun m hm => hwf m (by simp [hm])) hps n hn

theorem buildUpFuel_spec (H : String → String) :
    ∀ f l root, (∀ n ∈ l, WF H n) → buildUpFuel H f l = some root →
      WF H root ∧ leafHashes root = l.flatMap leafHashes := by
  intro f
  induction f with
  | zero =>
    intro l root hwf h
    cases l with
    | nil => simp [buildUpFuel] at h
    | cons a tail =>
      cases tail with
      | nil =>
        simp only [buildUpFuel, Option.some.injEq] at h
        subst h
        exact ⟨hwf a (by simp), by simp⟩
      | cons b rest => simp [buildUpFuel] at h
  | succ f ih =>
    intro l root hwf h
    cases l with
    | nil => simp [buildUpFuel] at h
    | cons a tail =>
      cases tail with
      | nil =>
        simp only [buildUpFuel, Option.some.injEq] at h
        subst h
        exact ⟨hwf a (by simp), by simp⟩
      | cons b rest =>
        simp only [buildUpFuel] at h
        cases hp : pairLevel H (a :: b :: rest) with
        | none => rw [hp] at h; simp at h
        | some next =>
          rw [hp] at h
          have hnextwf := pairLevel_wf H (a :: b :: rest) next hwf hp
          obtain ⟨h1, h2⟩ := ih next root hnextwf h
          exact ⟨h1, h2.trans (pairLevel_flat H (a :: b :: rest) next hp)⟩

theorem flat_leafHashes_leaves :
    ∀ txs : List Transaction,
      ((txs.map fun tx => MNode.leaf tx.hash tx.hash).flatMap leafHashes) =
        txs.map Transaction.hash := by
  intro txs
  induction txs with
  | nil => simp
  | cons t ts ih => simp [leafHashes, ih]

theorem mem_padEven_leaves (txs : List Transaction) (hne : txs ≠ []) (t : String) :
    t ∈ ((padEven (txs.map fun tx => MNode.leaf tx.hash tx.hash)).flatMap leafHashes) ↔
      t ∈ txs.map Transaction.hash := by
  unfold padEven
  split
  · cases hlast : (txs.map fun tx => MNode.leaf tx.hash tx.hash).getLast? with
    | none =>
      have : txs.map (fun tx => MNode.leaf tx.hash tx.hash) ≠ [] := by
        simpa using hne
      rw [List.getLast?_eq_none_iff] at hlast
      exact absurd hlast this
    | some l =>
      have hmem : l ∈ txs.map fun tx => MNode.leaf tx.hash tx.hash :=
        mem_of_getLast?_eq hlast
      obtain ⟨tx, htx, rfl⟩ := List.mem_map.mp hmem
      simp only [Option.toList_some, List.flatMap_append, flat_leafHashes_leaves]
      constructor
      · intro hmem2
        rcases List.mem_append.mp hmem2 with h1 | h1
        · exact h1
        · simp only [List.flatMap_cons, List.flatMap_nil, leafHashes,
            List.append_nil, List.mem_singleton] at h1
          exact h1 ▸ List.mem_map_of_mem Transaction.hash htx
      · intro hmem2
        exact List.mem_append.mpr (Or.inl hmem2)
  · rw [flat_leafHashes_leaves]

theorem wf_padEven_leaves (H : String → String) (txs : List Transaction) :
    ∀ n ∈ padEven (txs.map fun tx => MNode.leaf tx.hash tx.hash), WF H n := by
  have hall : ∀ m ∈ txs.map fun tx => MNode.leaf tx.hash tx.hash, WF H m := by
    intro m hm
    obtain ⟨tx, _, rfl⟩ := List.mem_map.mp hm
    exact WF.leaf _ _
  intro n hn
  unfold padEven at hn
  split at hn
  · rcases List.mem_append.mp hn with h1 | h1
    · exact hall n h1
    · cases hlast : (txs.map fun tx => MNode.leaf tx.hash tx.hash).getLast? with
      | none => rw [hlast] at h1; simp at h1
      | some l =>
        rw [hlast] at h1
        simp only [Option.toList_some, List.mem_singleton] at h1
        exact h1 ▸ hall l (mem_of_getLast?_eq hlast)
  · exact hall n hn

theorem newMerkleTree_spec (H : String → String) (txs : List Transaction)
    (mt : MerkleTree) (hne : txs ≠ []) (hb : newMerkleTree H txs = some mt) :
    ∃ r, mt.root = some r ∧ WF H r ∧
      ∀ t, t ∈ leafHashes r ↔ t ∈ txs.map Transaction.hash := by
  unfold newMerkleTree at hb
  rw [if_neg (by simpa using hne)] at hb
  simp only [Option.map_eq_some'] at hb
  obtain ⟨root, hroot, rfl⟩ := hb
  obtain ⟨hwf, hleaves⟩ :=
    buildUpFuel_spec H _ _ root (wf_padEven_leaves H txs) hroot
  refine ⟨root, rfl, hwf, ?_⟩
  intro t
  rw [hleaves]
  exact mem_padEven_leaves txs hne t

theorem buildProof_fold (H : String → String) {n : MNode} (hwf : WF H n) :
    ∀ t p, buildProof n t = some p →
      p.foldl (foldProofStep H) t = n.nodeHash := by
  induction hwf with
  | leaf h d =>
    intro t p hb
    simp only [buildProof] at hb
    split at hb
    · cases hb
      simp [MNode.nodeHash, *]
    · cases hb
  | @inner l r hl hr ihl ihr =>
    intro t p hb
    simp only [buildProof] at hb
    cases hbl : buildProof l t with
    | some q =>
      rw [hbl] at hb
      cases hb
      rw [List.foldl_append]
      simp [foldProofStep, ihl t q hbl, MNode.nodeHash]
    | none =>
      rw [hbl] at hb
      cases hbr : buildProof r t with
      | some q =>
        rw [hbr] at hb
        cases hb
        rw [List.foldl_append]
        simp [foldProofStep, ihr t q hbr, MNode.nodeHash]
      | none => rw [hbr] at hb; cases hb

theorem buildProof_isSome_of_mem :
    ∀ (n : MNode) (t : String), t ∈ leafHashes n → (buildProof n t).isSome := by
  intro n
  induction n with
  | leaf h d =>
    intro t ht
    simp only [leafHashes, List.mem_singleton] at ht
    simp [buildProof, ht]
  | inner l r h ihl ihr =>
    intro t ht
    simp only [buildProof]
    cases hbl : buildProof l t with
    | some q => simp
    | none =>
      simp only [leafHashes, List.mem_append] at ht
      rcases ht with ht | ht
      · have := ihl t ht
        rw [hbl] at this
        simp at this
      · have := ihr t ht
        cases hbr : buildProof r t with
        | some q => simp
        | none => rw [hbr] at this; simp at this

theorem mem_of_buildProof_some :
    ∀ (n : MNode) (t : String) (p : List (String × Bool)),
      buildProof n t = some p → t ∈ leafHashes n := by
  intro n
  induction n with
  | leaf h d =>
    intro t p hb
    simp only [buildProof] at hb
    split at hb
    · simp [leafHashes, *]
    · cases hb
  | inner l r h ihl ihr =>
    intro t p hb
    simp only [buildProof] at hb
    cases hbl : buildProof l t with
    | some q =>
      exact List.mem_append.mpr (Or.inl (ihl t q hbl))
    | none =>
      rw [hbl] at hb
      cases hbr : buildProof r t with
      | some q =>
        exact List.mem_append.mpr (Or.inr (ihr t q hbr))
      | none => rw [hbr] at hb; cases hb

theorem verifyProof_of_path (H : String → String) (txHash : String)
    (p : List (String × Bool)) (root : String)
    (hfold : p.foldl (foldProofStep H) txHash = root) :
    verifyProof H { hash := txHash, hashes := p.map Prod.fst, isLeft := p.map Prod.snd }
      root = true := by
  unfold verifyProof
  rw [if_neg (by simp)]
  have hzip : (p.map Prod.fst).zip (p.map Prod.snd) = p := by
    rw [List.zip_map']
    simp
  simp only [hzip, hfold, beq_self_eq_true]

theorem lookup_append_left {l l2 : List (String × Transaction)} {k : String}
    {v : Transaction} (h : l.lookup k = some v) : (l ++ l2).lookup k = some v := by
  rw [List.lookup_append, h]
  rfl

theorem addTransaction_preserves_lookup (tp : TransactionPool) (tx : Transaction)
    {k : String} {v : Transaction} (h : tp.transactions.lookup k = some v) :
    ((addTransaction tp tx).1).transactions.lookup k = some v := by
  unfold addTransaction
  split
  · exact h
  · cases hv : validateTransaction tp tx with
    | some e => exact h
    | none => exact lookup_append_left h

theorem mineBlock_hash_valid (H : String → String) (n : Int) (b : Block) :
    (mineBlock H n b).hash = calculateBlockHash H (mineBlock H n b) := rfl

theorem newBlock_eq (H : String → String) (i : Int) (txs : List Transaction)
    (ph : String) (ts : Int) (b : Block) (h : newBlock H i txs ph ts = some b) :
    ∃ mt, newMerkleTree H txs = some mt ∧
      b = { index := i, timestamp := ts, transactions := txs, prevHash := ph,
            nonce := 0, hash := "", merkleRoot := getMerkleRoot mt,
            merkleTreeCache := some mt } := by
  unfold newBlock at h
  simp only [Option.map_eq_some'] at h
  obtain ⟨mt, h1, h2⟩ := h
  exact ⟨mt, h1, h2.symm⟩

theorem foldl_applyTxBalance_eq (addr : String) :
    ∀ (txs : List Transaction) (bal : Rat),
      (∀ tx ∈ txs, tx.fromAddr ≠ addr ∧ tx.toAddr ≠ addr) →
      txs.foldl (applyTxBalance addr) bal = bal := by
  intro txs
  induction txs with
  | nil => intro bal _; rfl
  | cons t ts ih =>
    intro bal h
    rw [List.foldl_cons]
    have ht := h t (by simp)
    have hstep : applyTxBalance addr bal t = bal := by
      unfold applyTxBalance
      rw [if_neg ht.1, if_neg ht.2]
    rw [hstep]
    exact ih bal (fun tx hx => h tx (by simp [hx]))

theorem calculateBlockHash_coreEq (H : String → String) {x y : Block}
    (h : coreEq x y) : calculateBlockHash H x = calculateBlockHash H y := by
  obtain ⟨hi, ht, hph, _, hn, hmr, _⟩ := h
  unfold calculateBlockHash
  rw [hi, ht, hph, hn, hmr]

theorem goodTail_coreEq (H : String → String) :
    ∀ (rest rest' : List Block), List.Forall₂ coreEq rest rest' →
      ∀ (prev prev' : Block), coreEq prev prev' →
      GoodTail H prev rest → GoodTail H prev' rest' := by
  intro rest rest' hf
  induction hf with
  | nil => intro _ _ _ _; trivial
  | @cons x y l1 l2 hxy htail ih =>
    intro prev prev' hpp hgt
    obtain ⟨h1, h2, ⟨mt, hmt, hroot⟩, h4⟩ := hgt
    refine ⟨?_, ?_, ⟨mt, ?_, ?_⟩, ih x y hxy h4⟩
    · rw [← hxy.2.2.2.1, h1]
      exact calculateBlockHash_coreEq H hxy
    · rw [← hxy.2.2.1, h2, hpp.2.2.2.1]
    · rw [← hxy.2.2.2.2.2.2, hmt]
    · rw [← hxy.2.2.2.2.2.1, hroot]

theorem forall2_coreEq_refl : ∀ c : List Block, List.Forall₂ coreEq c c := by
  intro c
  induction c with
  | nil => exact .nil
  | cons b bs ih => exact .cons ⟨rfl, rfl, rfl, rfl, rfl, rfl, rfl⟩ ih

theorem forall2_coreEq_set :
    ∀ (c : List Block) (i : Nat) (b b' : Block), c.get? i = some b → coreEq b b' →
      List.Forall₂ coreEq c (c.set i b') := by
  intro c
  induction c with
  | nil => intro i b b' h _; simp at h
  | cons x xs ih =>
    intro i b b' hget hc
    cases i with
    | zero =>
      simp only [List.get?_cons_zero, Option.some.injEq] at hget
      subst hget
      exact .cons hc (forall2_coreEq_refl xs)
    | succ n =>
      simp only [List.get?_cons_succ] at hget
      exact .cons ⟨rfl, rfl, rfl, rfl, rfl, rfl, rfl⟩ (ih n b b' hget hc)

theorem forall2_coreEq_mutate (c : List Block) (i j : Nat) (a : Rat) :
    List.Forall₂ coreEq c (mutateAmount c i j a) := by
  unfold mutateAmount
  split
  · exact forall2_coreEq_refl c
  · next b hgi =>
    split
    · exact forall2_coreEq_refl c
    · next tx hgj =>
      exact forall2_coreEq_set c i b _ hgi ⟨rfl, rfl, rfl, rfl, rfl, rfl, rfl⟩

theorem goodChain_coreEq (H : String → String) :
    ∀ (c c' : List Block), List.Forall₂ coreEq c c' →
      GoodChain H c → GoodChain H c' := by
  intro c c' hf
  cases hf with
  | nil => intro h; exact h.elim
  | cons hxy htail =>
    intro hg
    exact goodTail_coreEq H _ _ htail _ _ hxy hg

theorem goodChain_mutate (H : String → String) {c : List Block} (i j : Nat) (a : Rat)
    (hg : GoodChain H c) : GoodChain H (mutateAmount c i j a) :=
  goodChain_coreEq H c _ (forall2_coreEq_mutate c i j a) hg

theorem goodTail_append (H : String → String) :
    ∀ (rest : List Block) (g L b : Block),
      GoodTail H g rest → (g :: rest).getLast? = some L →
      b.hash = calculateBlockHash H b → b.prevHash = L.hash →
      (∃ mt, b.merkleTreeCache = some mt ∧ b.merkleRoot = getMerkleRoot mt) →
      GoodTail H g (rest ++ [b]) := by
  intro rest
  induction rest with
  | nil =>
    intro g L b _ hlast hh hp hmt
    simp only [List.getLast?_singleton, Option.some.injEq] at hlast
    subst hlast
    exact ⟨hh, hp, hmt, trivial⟩
  | cons x xs ih =>
    intro g L b hgt hlast hh hp hmt
    obtain ⟨h1, h2, h3, h4⟩ := hgt
    rw [List.getLast?_cons_cons] at hlast
    exact ⟨h1, h2, h3, ih x L b h4 hlast hh hp hmt⟩

theorem goodChain_append (H : String → String) (c : List Block) (L b : Block)
    (hg : GoodChain H c) (hlast : c.getLast? = some L)
    (hh : b.hash = calculateBlockHash H b) (hp : b.prevHash = L.hash)
    (hmt : ∃ mt, b.merkleTreeCache = some mt ∧ b.merkleRoot = getMerkleRoot mt) :
    GoodChain H (c ++ [b]) := by
  cases c with
  | nil => exact hg.elim
  | cons g rest =>
    show GoodTail H g (rest ++ [b])
    exact goodTail_append H rest g L b hg hlast hh hp hmt

theorem minePending_shape (H : String → String) (pbc pbc' : PersistentBlockchain)
    (err : Option String) (finalNonce now : Int) (saveOk : Bool)
    (hm : minePendingTransactionsP H pbc finalNonce now saveOk = some (pbc', err)) :
    pbc'.chain = pbc.chain ∨
    ∃ latest mined, getLatestBlock pbc.chain = some latest ∧
      pbc'.chain = pbc.chain ++ [mined] ∧
      mined.hash = calculateBlockHash H mined ∧
      mined.prevHash = latest.hash ∧
      (∃ mt, mined.merkleTreeCache = some mt ∧ mined.merkleRoot = getMerkleRoot mt) := by
  simp only [minePendingTransactionsP] at hm
  split at hm
  · cases hm
  · next latest hl =>
    split at hm
    · cases hm
    · next b hnb =>
      obtain ⟨mt, hmt, hb⟩ := newBlock_eq H _ _ _ _ b hnb
      split at hm
      · simp only [Option.some.injEq, Prod.mk.injEq] at hm
        obtain ⟨hpbc, _⟩ := hm
        subst hpbc
        refine Or.inr ⟨latest, mineBlock H finalNonce b, hl, rfl,
          mineBlock_hash_valid H finalNonce b, ?_, ⟨mt, ?_, ?_⟩⟩
        · show b.prevHash = latest.hash
          rw [hb]
        · show b.merkleTreeCache = some mt
          rw [hb]
        · show b.merkleRoot = getMerkleRoot mt
          rw [hb]
      · simp only [Option.some.injEq, Prod.mk.injEq] at hm
        obtain ⟨hpbc, _⟩ := hm
        subst hpbc
        exact Or.inl (List.dropLast_concat)

theorem produced_goodChain (H : String → String) {pbc : PersistentBlockchain}
    (hp : Produced H pbc) : GoodChain H pbc.chain := by
  induction hp with
  | fresh d addr ts => trivial
  | addTx tx hp ih => exact ih
  | addEnh now tx hp ih => exact ih
  | addSig txHash sig hp ih => exact ih
  | mine finalNonce now saveOk err hp hm ih =>
    rcases minePending_shape H _ _ _ _ _ _ hm with hsame | ⟨latest, mined, hl, hchain, hh, hprev, hmt⟩
    · rw [hsame]
      exact ih
    · rw [hchain]
      exact goodChain_append H _ latest mined ih hl hh hprev hmt

theorem validFromP_of_goodTail (H : String → String) :
    ∀ (rest : List Block) (prev : Block), GoodTail H prev rest →
      validFromP H prev rest = some true := by
  intro rest
  induction rest with
  | nil => intro _ _; rfl
  | cons b bs ih =>
    intro prev hgt
    obtain ⟨h1, h2, ⟨mt, hmt, hroot⟩, h4⟩ := hgt
    unfold validFromP
    rw [if_neg (by simp [h1]), if_neg (by simp [h2])]
    have hv : validateTransactions H b = some true := by
      unfold validateTransactions
      rw [hmt]
      simp [hroot]
    rw [hv]
    exact ih b h4

theorem isChainValidP_of_goodChain (H : String → String)
    (pbc : PersistentBlockchain) (hg : GoodChain H pbc.chain) :
    isChainValidP H pbc = some true := by
  unfold isChainValidP
  cases hc : pbc.chain with
  | nil => rw [hc] at hg
  | cons g rest =>
    rw [hc] at hg
    exact validFromP_of_goodTail H rest g hg

end BC

/-- C2: for every transaction batch over which the Merkle tree build
completes (C1 records that the build panics on some sizes), generating a
proof for the hash of each transaction in the batch succeeds and the
proof verifies against the tree root; and proof generation for any hash
that is not a leaf hash of the batch fails with the not-found error. -/
theorem c2_generateProof_roundtrip (H : String → String) (txs : List BC.Transaction)
    (mt : BC.MerkleTree) (hne : txs ≠ []) (hb : BC.newMerkleTree H txs = some mt) :
    (∀ tx ∈ txs, ∃ p, BC.generateProof mt tx.hash = .ok p ∧
        BC.verifyProof H p (BC.getMerkleRoot mt) = true) ∧
    (∀ h, h ∉ txs.map BC.Transaction.hash →
        BC.generateProof mt h = .error "transaction not found in tree") := by
  obtain ⟨r, hr, hwf, hmem⟩ := BC.newMerkleTree_spec H txs mt hne hb
  constructor
  · intro tx htx
    have hleaf : tx.hash ∈ BC.leafHashes r :=
      (hmem tx.hash).mpr (List.mem_map_of_mem BC.Transaction.hash htx)
    have hsome := BC.buildProof_isSome_of_mem r tx.hash hleaf
    cases hbp : BC.buildProof r tx.hash with
    | none => rw [hbp] at hsome; simp at hsome
    | some p =>
      refine ⟨{ hash := tx.hash, hashes := p.map Prod.fst, isLeft := p.map Prod.snd },
        ?_, ?_⟩
      · simp [BC.generateProof, hr, hbp]
      · have hfold := BC.buildProof_fold H hwf tx.hash p hbp
        have : BC.getMerkleRoot mt = r.nodeHash := by
          unfold BC.getMerkleRoot
          rw [hr]
        rw [this]
        exact BC.verifyProof_of_path H tx.hash p r.nodeHash hfold
  · intro h hnot
    have hnotleaf : h ∉ BC.leafHashes r := fun hc => hnot ((hmem h).mp hc)
    cases hbp : BC.buildProof r h with
    | some p => exact absurd (BC.mem_of_buildProof_some r h p hbp) hnotleaf
    | none => simp [BC.generateProof, hr, hbp]

/-- Witness for C2: the three-transaction demo batch builds, every
member has a verifying proof, and non-member hashes are rejected. -/
theorem c2_generateProof_roundtrip_witness :
    (∀ tx ∈ BC.demoTxs, ∃ p, BC.generateProof BC.demoTree tx.hash = .ok p ∧
        BC.verifyProof BC.tagHash p (BC.getMerkleRoot BC.demoTree) = true) ∧
    (∀ h, h ∉ BC.demoTxs.map BC.Transaction.hash →
        BC.generateProof BC.demoTree h = .error "transaction not found in tree") :=
  c2_generateProof_roundtrip BC.tagHash BC.demoTxs BC.demoTree (by decide) (by rfl)


/-- C1: the claim says NewMerkleTree completes successfully on every
non-empty ordered batch because any odd-sized level duplicates its last
node before pairing.  The code pads only the leaf level: a batch of five
transactions is padded to six leaves, the first pass produces a level of
three nodes, and the next pass reads nodes[3] of a three-element slice,
a runtime panic (modelled as `none`).  This theorem evaluates the build
at that failing input. -/
theorem c1_newMerkleTree_panics_on_five_transactions :
    BC.newMerkleTree BC.tagHash
      [BC.newTransaction BC.tagHash "a" "b" 1 0,
       BC.newTransaction BC.tagHash "a" "b" 2 0,
       BC.newTransaction BC.tagHash "a" "b" 3 0,
       BC.newTransaction BC.tagHash "a" "b" 4 0,
       BC.newTransaction BC.tagHash "a" "b" 5 0] = none := by
  rfl

/-- C10: a Merkle proof with empty sibling and flag arrays passes the
length check, the verification fold is empty, and VerifyProof reduces to
comparing the target hash with the expected root; consequently every
block accepts the degenerate proof whose target hash is its stored
merkleRoot, whatever transactions the block contains. -/
theorem c10_degenerate_proof (H : String → String) (h root : String) (b : BC.Block) :
    (BC.verifyProof H { hash := h, hashes := [], isLeft := [] } root = true ↔ h = root) ∧
    BC.verifyTransactionProof H b
      { hash := b.merkleRoot, hashes := [], isLeft := [] } = true := by
  constructor
  · simp [BC.verifyProof]
  · simp [BC.verifyTransactionProof, BC.verifyProof]

/-- Witness for C10 at a concrete hash, root and block. -/
theorem c10_degenerate_proof_witness :
    (BC.verifyProof BC.tagHash { hash := "x", hashes := [], isLeft := [] } "x" = true ↔
      ("x" : String) = "x") ∧
    BC.verifyTransactionProof BC.tagHash (BC.createGenesisBlock BC.tagHash 0)
      { hash := (BC.createGenesisBlock BC.tagHash 0).merkleRoot, hashes := [],
        isLeft := [] } = true :=
  c10_degenerate_proof BC.tagHash "x" "x" (BC.createGenesisBlock BC.tagHash 0)

/-- C8 counterexample: the claim says all four configuration values are
caller-supplied at construction, so different supplied values would
yield different stored values.  The constructors take no mining-reward
and no pool-size argument: every construction, whatever its arguments,
stores miningReward 10.0 and pool maximum 1000. -/
theorem c8_counterexample :
    (BC.newBlockchain BC.tagHash 0 3 "alice").miningReward = 10 ∧
    (BC.newBlockchain BC.tagHash 0 7 "bob").miningReward = 10 ∧
    (BC.newBlockchain BC.tagHash 0 3 "alice").transactionPool.maxSize = 1000 ∧
    (BC.newBlockchain BC.tagHash 0 7 "bob").transactionPool.maxSize = 1000 ∧
    (BC.freshPersistentBlockchain BC.tagHash 5 "carol" 0).miningReward = 10 ∧
    (BC.freshPersistentBlockchain BC.tagHash 5 "carol" 0).transactionPool.maxSize = 1000 ∧
    (BC.freshPersistentBlockchain BC.tagHash 5 "carol" 0).enhancedPool.maxSize = 1000 :=
  ⟨rfl, rfl, rfl, rfl, rfl, rfl, rfl⟩

/-- C8 amended: only the mining difficulty and the reward recipient
address are caller-supplied at Chain construction; the mining reward
amount is the fixed literal 10.0 and the pool maximum size is the fixed
literal 1000 in both constructors. -/
theorem c8_config_construction (H : String → String) (gt d : Int) (addr : String)
    (loaded : Option (List BC.Block)) :
    (BC.newBlockchain H gt d addr).difficulty = d ∧
    (BC.newBlockchain H gt d addr).miningRewardAddr = addr ∧
    (BC.newBlockchain H gt d addr).miningReward = 10 ∧
    (BC.newBlockchain H gt d addr).transactionPool.maxSize = 1000 ∧
    (BC.newPersistentBlockchain H loaded d addr gt).difficulty = d ∧
    (BC.newPersistentBlockchain H loaded d addr gt).miningRewardAddr = addr ∧
    (BC.newPersistentBlockchain H loaded d addr gt).miningReward = 10 ∧
    (BC.newPersistentBlockchain H loaded d addr gt).transactionPool.maxSize = 1000 ∧
    (BC.newPersistentBlockchain H loaded d addr gt).enhancedPool.maxSize = 1000 :=
  ⟨rfl, rfl, rfl, rfl, rfl, rfl, rfl, rfl, rfl⟩

/-- Witness for C8 amended at concrete construction arguments. -/
theorem c8_config_construction_witness :
    (BC.newBlockchain BC.tagHash 0 4 "miner1").difficulty = 4 ∧
    (BC.newBlockchain BC.tagHash 0 4 "miner1").miningRewardAddr = "miner1" ∧
    (BC.newBlockchain BC.tagHash 0 4 "miner1").miningReward = 10 ∧
    (BC.newBlockchain BC.tagHash 0 4 "miner1").transactionPool.maxSize = 1000 ∧
    (BC.newPersistentBlockchain BC.tagHash none 4 "miner1" 0).difficulty = 4 ∧
    (BC.newPersistentBlockchain BC.tagHash none 4 "miner1" 0).miningRewardAddr = "miner1" ∧
    (BC.newPersistentBlockchain BC.tagHash none 4 "miner1" 0).miningReward = 10 ∧
    (BC.newPersistentBlockchain BC.tagHash none 4 "miner1" 0).transactionPool.maxSize = 1000 ∧
    (BC.newPersistentBlockchain BC.tagHash none 4 "miner1" 0).enhancedPool.maxSize = 1000 :=
  c8_config_construction BC.tagHash 0 4 "miner1" none

/-- C7: AddTransaction fails and leaves the pool unchanged exactly when
the pool is at or above its configured maximum, an address is empty, the
amount is non-positive, the fee is negative, or the hash key is already
present; otherwise it appends the entry under the hash key. -/
theorem c7_pool_addTransaction (tp : BC.TransactionPool) (tx : BC.Transaction) :
    ((BC.addTransaction tp tx).2.isSome ↔
      (tp.maxSize ≤ tp.transactions.length ∨ tx.fromAddr = "" ∨ tx.toAddr = "" ∨
        tx.amount ≤ 0 ∨ tx.fee < 0 ∨ (tp.transactions.lookup tx.hash).isSome)) ∧
    ((BC.addTransaction tp tx).2.isSome → (BC.addTransaction tp tx).1 = tp) ∧
    ((BC.addTransaction tp tx).2 = none →
      (BC.addTransaction tp tx).1 =
        { tp with transactions := tp.transactions ++ [(tx.hash, tx)] }) := by
  by_cases h1 : tp.maxSize ≤ tp.transactions.length
  · simp [BC.addTransaction, h1]
  · by_cases h2 : tx.fromAddr = "" ∨ tx.toAddr = ""
    · rcases h2 with h2a | h2a
      · simp [BC.addTransaction, BC.validateTransaction, h1, h2a]
      · simp [BC.addTransaction, BC.validateTransaction, h1, h2a]
    · by_cases h3 : tx.amount ≤ 0
      · simp [BC.addTransaction, BC.validateTransaction, h1, h2, h3]
      · by_cases h4 : tx.fee < 0
        · simp [BC.addTransaction, BC.validateTransaction, h1, h2, h3, h4]
        · by_cases h5 : (tp.transactions.lookup tx.hash).isSome
          · simp [BC.addTransaction, BC.validateTransaction, h1, h2, h3, h4, h5]
          · simp [BC.addTransaction, BC.validateTransaction, h1, h2, h3, h4, h5]

/-- Witness for C7 at a concrete pool and transaction. -/
theorem c7_pool_addTransaction_witness :
    ((BC.addTransaction BC.demoPool BC.demoTx2).2.isSome ↔
      (BC.demoPool.maxSize ≤ BC.demoPool.transactions.length ∨
        BC.demoTx2.fromAddr = "" ∨ BC.demoTx2.toAddr = "" ∨
        BC.demoTx2.amount ≤ 0 ∨ BC.demoTx2.fee < 0 ∨
        (BC.demoPool.transactions.lookup BC.demoTx2.hash).isSome)) ∧
    ((BC.addTransaction BC.demoPool BC.demoTx2).2.isSome →
      (BC.addTransaction BC.demoPool BC.demoTx2).1 = BC.demoPool) ∧
    ((BC.addTransaction BC.demoPool BC.demoTx2).2 = none →
      (BC.addTransaction BC.demoPool BC.demoTx2).1 =
        { BC.demoPool with
          transactions := BC.demoPool.transactions ++ [(BC.demoTx2.hash, BC.demoTx2)] }) :=
  c7_pool_addTransaction BC.demoPool BC.demoTx2

namespace BC

theorem isExecutable_iff (now : Int) (hnow : 0 ≤ now) (tx : EnhancedTransaction) :
    isExecutable now tx = true ↔
      (isFullySigned tx = true ∧
        (tx.type = TransactionType.timeLockTx → tx.lockTime ≤ now)) := by
  cases hfs : isFullySigned tx with
  | false => simp [isExecutable, hfs]
  | true =>
    by_cases hc : tx.type = TransactionType.timeLockTx ∧ 0 < tx.lockTime
    · simp only [isExecutable, hfs, Bool.not_true, Bool.false_eq_true, if_false,
        if_pos hc, decide_eq_true_iff, eq_self_iff_true, true_and]
      exact ⟨fun hle _ => hle, fun h => h hc.1⟩
    · simp only [isExecutable, hfs, Bool.not_true, Bool.false_eq_true, if_false,
        if_neg hc, eq_self_iff_true, true_and, true_iff, iff_true]
      intro htl
      rcases not_and_or.mp hc with hc1 | hc2
      · exact absurd htl hc1
      · omega

end BC

/-- C6: the enhanced pool returns every stored standard transaction
unconditionally, fully-signed means one signature except that MultiSig
needs RequiredSigs many, and (for any non-negative current time) an
enhanced transaction is returned exactly when it is stored, fully
signed, and — if it is a TimeLock transaction — its lock time has been
reached.  The 2-of-3 MultiSig instance of the equivalence is exercised
by the witness. -/
theorem c6_executable_transactions (now : Int) (hnow : 0 ≤ now)
    (etp : BC.EnhancedTransactionPool) :
    (BC.getExecutableTransactions now etp).1 = etp.standardTxs.map Prod.snd ∧
    (∀ tx : BC.EnhancedTransaction, BC.isFullySigned tx = true ↔
      (if tx.type = BC.TransactionType.multiSigTx then
        tx.requiredSigs ≤ (tx.signatures.length : Int)
      else 1 ≤ tx.signatures.length)) ∧
    (∀ tx : BC.EnhancedTransaction,
      tx ∈ (BC.getExecutableTransactions now etp).2 ↔
        (tx ∈ etp.enhancedTxs.map Prod.snd ∧ BC.isFullySigned tx = true ∧
          (tx.type = BC.TransactionType.timeLockTx → tx.lockTime ≤ now))) := by
  refine ⟨rfl, ?_, ?_⟩
  · intro tx
    cases htype : tx.type <;> simp [BC.isFullySigned, htype]
  · intro tx
    show tx ∈ (etp.enhancedTxs.map Prod.snd).filter (BC.isExecutable now) ↔ _
    rw [List.mem_filter, BC.isExecutable_iff now hnow tx]

/-- Witness for C6: in the demo pool the 2-of-3 MultiSig transaction
with one signature is excluded and the one with two signatures is
included, and the standard transaction is always returned. -/
theorem c6_executable_transactions_witness :
    ((BC.getExecutableTransactions 100 BC.demoEtp).1 =
        BC.demoEtp.standardTxs.map Prod.snd ∧
      (∀ tx : BC.EnhancedTransaction, BC.isFullySigned tx = true ↔
        (if tx.type = BC.TransactionType.multiSigTx then
          tx.requiredSigs ≤ (tx.signatures.length : Int)
        else 1 ≤ tx.signatures.length)) ∧
      (∀ tx : BC.EnhancedTransaction,
        tx ∈ (BC.getExecutableTransactions 100 BC.demoEtp).2 ↔
          (tx ∈ BC.demoEtp.enhancedTxs.map Prod.snd ∧ BC.isFullySigned tx = true ∧
            (tx.type = BC.TransactionType.timeLockTx → tx.lockTime ≤ 100)))) ∧
    BC.msig1 ∉ (BC.getExecutableTransactions 100 BC.demoEtp).2 ∧
    BC.msig2 ∈ (BC.getExecutableTransactions 100 BC.demoEtp).2 :=
  ⟨c6_executable_transactions 100 (by decide) BC.demoEtp, by decide, by decide⟩

unseal Rat.add Rat.sub Rat.mul Rat.inv in
/-- C4 counterexample: the claim covers the full-chain-scan balance
computation and asserts balance(A) = -10.1 in the concrete scenario,
but Blockchain.GetBalance — one of the two full-chain scans, the one in
blockchain.go — subtracts only the amount and never the fee, so after A
sends 10.0 to B with fee 0.1 and one block is mined it reports
balance(A) = -10.0, not -10.1. -/
theorem c4_inMemory_getBalance_ignores_fee :
    BC.getBalance BC.scenarioBc2 "A" = -10 ∧
    BC.getBalance BC.scenarioBc2 "A" ≠ -(101 / 10) := by
  refine ⟨by decide, by decide⟩

unseal Rat.add Rat.sub Rat.mul Rat.inv in
/-- C4 amended: the persistent fallback scan calculateBalanceFromChain
debits each sender by amount plus fee and credits each receiver by the
amount — in the scenario it yields balance(A) = -10.1, balance(B) = 10.0
and balance(miner) = 10.0 — while the in-memory Blockchain.GetBalance
scan ignores fees and yields balance(A) = -10.0 (B and miner agree
between the two scans because they pay no fee). -/
theorem c4_balance_scenario :
    BC.calculateBalanceFromChain BC.scenarioPbc2 "A" = -(101 / 10) ∧
    BC.calculateBalanceFromChain BC.scenarioPbc2 "B" = 10 ∧
    BC.calculateBalanceFromChain BC.scenarioPbc2 "miner" = 10 ∧
    BC.getBalance BC.scenarioBc2 "A" = -10 ∧
    BC.getBalance BC.scenarioBc2 "B" = 10 ∧
    BC.getBalance BC.scenarioBc2 "miner" = 10 := by
  refine ⟨by decide, by decide, by decide, by decide, by decide, by decide⟩

/-- C5: when the database save fails during MinePendingTransactions the
just-mined block is popped so the chain is exactly the chain from before
the call, the persistence error is returned, every transaction that was
pending before the call is still in the pool under its key, and the
enhanced pool is untouched. -/
theorem c5_persistence_failure_rollback (H : String → String)
    (pbc pbc' : BC.PersistentBlockchain) (err : Option String) (finalNonce now : Int)
    (hm : BC.minePendingTransactionsP H pbc finalNonce now false = some (pbc', err)) :
    pbc'.chain = pbc.chain ∧ err = some "failed to persist block" ∧
    (∀ k v, pbc.transactionPool.transactions.lookup k = some v →
      pbc'.transactionPool.transactions.lookup k = some v) ∧
    pbc'.enhancedPool = pbc.enhancedPool := by
  simp only [BC.minePendingTransactionsP, Bool.false_eq_true, if_false] at hm
  split at hm
  · cases hm
  · split at hm
    · cases hm
    · simp only [Option.some.injEq, Prod.mk.injEq] at hm
      obtain ⟨hpbc, herr⟩ := hm
      subst hpbc
      subst herr
      refine ⟨List.dropLast_concat, rfl, ?_, rfl⟩
      intro k v hv
      exact BC.addTransaction_preserves_lookup pbc.transactionPool _ hv

unseal Rat.add Rat.sub Rat.mul Rat.inv in
/-- Witness for C5: a concrete failed save on the scenario chain leaves
the chain and pools as stated. -/
theorem c5_persistence_failure_rollback_witness :
    BC.scenarioPbcFail.chain = BC.scenarioPbc1.chain ∧
    (some "failed to persist block" : Option String) = some "failed to persist block" ∧
    (∀ k v, BC.scenarioPbc1.transactionPool.transactions.lookup k = some v →
      BC.scenarioPbcFail.transactionPool.transactions.lookup k = some v) ∧
    BC.scenarioPbcFail.enhancedPool = BC.scenarioPbc1.enhancedPool :=
  c5_persistence_failure_rollback BC.tagHash BC.scenarioPbc1 BC.scenarioPbcFail
    (some "failed to persist block") 7 100 (by rfl)

/-- Appending a block (and replacing the pool) adds exactly the transactions of that block to a balance scan. -/
theorem BC.getBalance_chain_append (bc : BC.Blockchain) (tp2 : BC.TransactionPool)
    (blk : BC.Block) (addr : String) :
    BC.getBalance { bc with
      chain := bc.chain ++ [blk], transactionPool := tp2 } addr =
      blk.transactions.foldl (BC.applyTxBalance addr) (BC.getBalance bc addr) := by
  unfold BC.getBalance
  rw [show ({ bc with
      chain := bc.chain ++ [blk], transactionPool := tp2 } : BC.Blockchain).chain =
      bc.chain ++ [blk] from rfl]
  rw [List.foldl_append]
  simp

/-- C9: when the pool is already at its maximum size at the start of
MinePendingTransactions, the reward insertion fails and its error is
discarded, mining proceeds, and the mined block carries exactly the
transactions that were already pooled; in particular the reward
transaction of this call is absent (unless an identical transaction was
already pooled) and, when no pooled transaction names the reward
address, the balance of that address is unchanged by the new block. -/
theorem c9_full_pool_mines_without_reward (H : String → String)
    (bc bc' : BC.Blockchain) (finalNonce now : Int)
    (hfull : bc.transactionPool.maxSize ≤ bc.transactionPool.transactions.length)
    (hm : BC.minePendingTransactionsM H bc finalNonce now = some bc') :
    ∃ mined, bc'.chain = bc.chain ++ [mined] ∧
      mined.transactions = BC.getTransactions bc.transactionPool ∧
      (BC.rewardTransaction H bc.miningRewardAddr bc.miningReward ∉
          BC.getTransactions bc.transactionPool →
        BC.rewardTransaction H bc.miningRewardAddr bc.miningReward ∉
          mined.transactions) ∧
      ((∀ tx ∈ BC.getTransactions bc.transactionPool,
          tx.fromAddr ≠ bc.miningRewardAddr ∧ tx.toAddr ≠ bc.miningRewardAddr) →
        BC.getBalance bc' bc.miningRewardAddr = BC.getBalance bc bc.miningRewardAddr) := by
  have hpool : (BC.addTransaction bc.transactionPool
      (BC.rewardTransaction H bc.miningRewardAddr bc.miningReward)).1 =
      bc.transactionPool := by
    unfold BC.addTransaction
    rw [if_pos hfull]
  simp only [BC.minePendingTransactionsM, hpool] at hm
  split at hm
  · cases hm
  · next latest hl =>
    split at hm
    · cases hm
    · next b hnb =>
      simp only [Option.some.injEq] at hm
      subst hm
      obtain ⟨mt, hmt, hb⟩ := BC.newBlock_eq H _ _ _ _ b hnb
      have htxs : (BC.mineBlock H finalNonce b).transactions =
          BC.getTransactions bc.transactionPool := by
        show b.transactions = _
        rw [hb]
      refine ⟨BC.mineBlock H finalNonce b, rfl, htxs, ?_, ?_⟩
      · intro hnotin
        rw [htxs]
        exact hnotin
      · intro hno
        rw [BC.getBalance_chain_append, htxs]
        exact BC.foldl_applyTxBalance_eq bc.miningRewardAddr _ _ hno

/-- Witness for C9: on the one-slot full pool, mining appends a block
holding exactly the pooled transaction, without the reward transaction
and without crediting the reward address. -/
theorem c9_full_pool_mines_without_reward_witness :
    ∃ mined, BC.fullPoolBc2.chain = BC.fullPoolBc.chain ++ [mined] ∧
      mined.transactions = BC.getTransactions BC.fullPoolBc.transactionPool ∧
      (BC.rewardTransaction BC.tagHash BC.fullPoolBc.miningRewardAddr
          BC.fullPoolBc.miningReward ∉
          BC.getTransactions BC.fullPoolBc.transactionPool →
        BC.rewardTransaction BC.tagHash BC.fullPoolBc.miningRewardAddr
          BC.fullPoolBc.miningReward ∉ mined.transactions) ∧
      ((∀ tx ∈ BC.getTransactions BC.fullPoolBc.transactionPool,
          tx.fromAddr ≠ BC.fullPoolBc.miningRewardAddr ∧
          tx.toAddr ≠ BC.fullPoolBc.miningRewardAddr) →
        BC.getBalance BC.fullPoolBc2 BC.fullPoolBc.miningRewardAddr =
          BC.getBalance BC.fullPoolBc BC.fullPoolBc.miningRewardAddr) :=
  c9_full_pool_mines_without_reward BC.tagHash BC.fullPoolBc BC.fullPoolBc2 3 50
    (by decide) (by rfl)

unseal Rat.add Rat.sub Rat.mul Rat.inv in
/-- C3 counterexample: the claim says isChainValid returns false
whenever the amount of a committed transaction is mutated without re-mining.
On the mined scenario chain the A-to-B amount of block 1 is mutated from
10 to 999, yet both IsChainValid variants still return true: the block
hash covers the transactions only through the Merkle root, the Merkle
leaves are the stored (stale) transaction hash strings, and
ValidateTransactions compares the stored root against the cached tree,
none of which the mutation touches. -/
theorem c3_mutation_not_detected :
    BC.isChainValidP BC.tagHash BC.tamperedPbc = some true ∧
    BC.isChainValidM BC.tagHash BC.tamperedBc = true ∧
    ((BC.tamperedPbc.chain.get? 1).map
      (fun b => (b.transactions.get? 0).map (fun tx => tx.amount))) =
        some (some 999) ∧
    ((BC.scenarioPbc2.chain.get? 1).map
      (fun b => (b.transactions.get? 0).map (fun tx => tx.amount))) =
        some (some 10) := by
  refine ⟨by decide, by decide, by decide, by decide⟩

/-- C3 amended: isChainValid returns true on every chain produced purely
by pool operations and MinePendingTransactions calls, and it STILL
returns true after the amount of any transaction of any committed block
is mutated post-hoc without re-mining: amount tampering is not detected,
because the block hash does not cover the transaction list and the
Merkle leaves are stored hash fields that a field mutation does not
refresh. -/
theorem c3_isChainValid_mining_and_mutation (H : String → String)
    (pbc : BC.PersistentBlockchain) (hp : BC.Produced H pbc) :
    BC.isChainValidP H pbc = some true ∧
    ∀ i j a, BC.isChainValidP H
      { pbc with chain := BC.mutateAmount pbc.chain i j a } = some true := by
  have hg := BC.produced_goodChain H hp
  exact ⟨BC.isChainValidP_of_goodChain H pbc hg,
    fun i j a => BC.isChainValidP_of_goodChain H _ (BC.goodChain_mutate H i j a hg)⟩

unseal Rat.add Rat.sub Rat.mul Rat.inv in
/-- Witness for C3: the mined scenario chain is valid and stays valid
under every post-hoc amount mutation. -/
theorem c3_isChainValid_mining_and_mutation_witness :
    BC.isChainValidP BC.tagHash BC.scenarioPbc2 = some true ∧
    ∀ i j a, BC.isChainValidP BC.tagHash
      { BC.scenarioPbc2 with
        chain := BC.mutateAmount BC.scenarioPbc2.chain i j a } = some true :=
  c3_isChainValid_mining_and_mutation BC.tagHash BC.scenarioPbc2
    (BC.Produced.mine 7 100 true none
      (BC.Produced.addTx BC.scenarioTxAB (BC.Produced.fresh 2 "miner" 0))
      (by rfl))
